import Mathlib

/-
  Verification of the proof-of-work blockchain prototypes
  (btclike crate and the networked node crate) against their
  natural-language specification.

  Modelling conventions:
  - Bytes are `List Nat`; fixed-width integer bounds (u32/u64) are made
    explicit exactly where the code's arithmetic can overflow.  Rust's
    debug-build overflow panic is modelled as the distinguished error
    `Error.Overflow`.
  - SHA-256 and Ed25519 live in the external `ring` crate, outside this
    repository.  They are modelled as function parameters (`hsh` for the
    digest, `sgn`/`pkf` for signing and public-key extraction, `sigOk`
    for signature verification); concrete witnesses instantiate them
    with injective stand-ins.  No claim below depends on the internals
    of SHA-256 or Ed25519, only on their determinism.
  - `bincode` serialization is likewise external; the serializers below
    follow the normative pre-image layout of the specification
    (fixed-width big-endian integers, 64-bit element-count prefixes,
    fields in declared order).  No claim depends on the exact byte
    layout, only on serialization being a fixed total function.
-/

namespace PowChain

/-- Byte strings (each entry is one byte). -/
abbrev Bytes := List Nat

/-- Big-endian bytes of `n`, width `w` (most significant byte first). -/
def natToBytes (w n : Nat) : Bytes :=
  (List.range w).map (fun i => n / 256 ^ (w - 1 - i) % 256)

/-- Checked u32 addition: Rust `+` on u32, with the debug-build overflow
    panic surfacing as `none`. -/
def addU32 (a b : Nat) : Option Nat :=
  if a + b < 4294967296 then some (a + b) else none

/-- Left fold of checked u32 additions starting from `acc`, mirroring the
    `amount += ...` accumulation loops of the source. -/
def sumU32From (acc : Nat) : List Nat → Option Nat
  | [] => some acc
  | x :: rest =>
    match addU32 acc x with
    | none => none
    | some a => sumU32From a rest

/-- Checked u32 sum of a list. -/
def sumU32 (l : List Nat) : Option Nat := sumU32From 0 l

/-- Rust slice lexicographic strict order on byte strings (`<` on `[u8]`):
    elementwise comparison, a strict prefix is smaller.  The source compares
    only equal-length 32-byte values, for which this agrees with both
    `&[u8] < &[u8]` and pow.rs's `less_than_u8` loop. -/
def bytesLt : Bytes → Bytes → Bool
  | [], [] => false
  | [], _ :: _ => true
  | _ :: _, [] => false
  | a :: xs, b :: ys =>
    if a < b then true
    else if b < a then false
    else bytesLt xs ys

namespace BtcLike

/-- Modelled from the spec: the btclike crate's root `Error` enum (its
    lib.rs is not among the provided sources; the taxonomy is §7 of the
    specification and every constructor below appears at a use site in the
    provided sources).  `Overflow` additionally models the debug-build
    panic of Rust integer arithmetic, and `InvalidNumberOfKeyPairs`
    drops the code's diagnostic string payload. -/
inductive Error where
  | SerializationFailure
  | CryptoFailure
  | UtxoNotFound
  | InvalidAddress
  | InvalidTxAmount
  | InvalidNumberOfKeyPairs
  | InvalidCoinbaseAmount
  | InvalidHeaderHash
  | HashIsTooHigh
  | HeaderAndBodyHashMismatch
  | InvalidGenesis
  | InvalidHeight
  | InvalidDifficulty
  | HeadAndTailHashMismatch
  | Overflow
deriving DecidableEq

/-- transaction.rs `TxOut { amount: u32, to_address: Address }`.
    An `Address` wraps a 32-byte hash; here it is its byte string. -/
structure TxOut where
  amount : Nat
  toAddress : Bytes
deriving DecidableEq

/-- transaction.rs `RawTxIn`. -/
structure RawTxIn where
  prevTxHash : Bytes
  prevTxOutputIndex : Nat
deriving DecidableEq

/-- transaction.rs `SignedTxIn`: a `RawTxIn` plus signature and signer key. -/
structure SignedTxIn where
  prevTxHash : Bytes
  prevTxOutputIndex : Nat
  txSignature : Bytes
  sigPublicKey : Bytes
deriving DecidableEq

/-- transaction.rs `RawTx`. -/
structure RawTx where
  input : List RawTxIn
  output : List TxOut
deriving DecidableEq

/-- transaction.rs `SignedTx`. -/
structure SignedTx where
  input : List SignedTxIn
  output : List TxOut
deriving DecidableEq

/-- transaction.rs `Address::from_pub_key`: SHA-256 of the public key
    bytes; `hsh` is the digest function. -/
def addressFromPubKey (hsh : Bytes → Bytes) (pubKey : Bytes) : Bytes :=
  hsh pubKey

/-- 64-bit count prefix followed by the serialized elements (codec rule for
    variable-size sequences). -/
def serializeSeq (f : α → Bytes) (l : List α) : Bytes :=
  natToBytes 8 l.length ++ l.foldr (fun x acc => f x ++ acc) []

/-- Serialization of a `TxOut`: amount then address. -/
def serializeTxOut (t : TxOut) : Bytes :=
  natToBytes 4 t.amount ++ t.toAddress

/-- Serialization of a `RawTxIn`: previous tx hash then output index. -/
def serializeRawTxIn (i : RawTxIn) : Bytes :=
  i.prevTxHash ++ [i.prevTxOutputIndex]

/-- Serialization of a `RawTx`: inputs then outputs, each count-prefixed. -/
def serializeRawTx (t : RawTx) : Bytes :=
  serializeSeq serializeRawTxIn t.input ++ serializeSeq serializeTxOut t.output

/-- Serialization of a `SignedTxIn`. -/
def serializeSignedTxIn (i : SignedTxIn) : Bytes :=
  i.prevTxHash ++ [i.prevTxOutputIndex] ++ i.txSignature ++ i.sigPublicKey

/-- Serialization of a `SignedTx`. -/
def serializeSignedTx (t : SignedTx) : Bytes :=
  serializeSeq serializeSignedTxIn t.input ++ serializeSeq serializeTxOut t.output

/-- transaction.rs `SignedTxIn::from_raw_tx_in`: sign the serialized raw
    transaction with the keypair `kp`, keep the UTXO reference.  `sgn` is
    Ed25519 signing and `pkf` public-key extraction (external `ring`
    crate); keypairs are opaque and modelled by `Nat` identifiers. -/
def SignedTxIn.fromRawTxIn (sgn : Nat → Bytes → Bytes) (pkf : Nat → Bytes)
    (r : RawTxIn) (serializedTx : Bytes) (kp : Nat) : SignedTxIn :=
  { prevTxHash := r.prevTxHash
    prevTxOutputIndex := r.prevTxOutputIndex
    txSignature := sgn kp serializedTx
    sigPublicKey := pkf kp }

/-- The signing loop of `SignedTx::from_raw_tx`: for each keypair in order,
    `pop()` the LAST remaining raw input and sign it.  The `[]` raw-input
    case mirrors the `unwrap()` panic and is unreachable under the length
    guard of `fromRawTx`. -/
def signAll (sgn : Nat → Bytes → Bytes) (pkf : Nat → Bytes)
    (serializedTx : Bytes) : List Nat → List RawTxIn → List SignedTxIn
  | [], _ => []
  | kp :: kps, raws =>
    match raws.getLast? with
    | none => []
    | some r =>
      SignedTxIn.fromRawTxIn sgn pkf r serializedTx kp ::
        signAll sgn pkf serializedTx kps raws.dropLast

/-- transaction.rs `SignedTx::from_raw_tx`. -/
def SignedTx.fromRawTx (sgn : Nat → Bytes → Bytes) (pkf : Nat → Bytes)
    (raw : RawTx) (keyPairs : List Nat) : Except Error SignedTx :=
  let serialized := serializeRawTx raw
  if raw.input.length ≠ keyPairs.length then
    .error .InvalidNumberOfKeyPairs
  else
    .ok { input := signAll sgn pkf serialized keyPairs raw.input
          output := raw.output }

/-- transaction.rs `SignedTx::clone_without_signatures`. -/
def SignedTx.cloneWithoutSignatures (tx : SignedTx) : RawTx :=
  { input := tx.input.map (fun i =>
      { prevTxHash := i.prevTxHash, prevTxOutputIndex := i.prevTxOutputIndex })
    output := tx.output }

/-- A `UtxoStore` capability: `find(tx_hash, out_index)`. -/
abbrev UtxoStore := Bytes → Nat → Option TxOut

/-- The first loop of `SignedTx::verify`: look up every input's referenced
    output, `none` as soon as one is missing. -/
def lookupAll (store : UtxoStore) : List SignedTxIn → Option (List TxOut)
  | [] => some []
  | i :: rest =>
    match store i.prevTxHash i.prevTxOutputIndex with
    | none => none
    | some t => (lookupAll store rest).map (fun l => t :: l)

/-- The final loop of `SignedTx::verify`: pair each input with its
    referenced output (`enumerate` + indexing in the source, a plain zip
    here since the lists have equal length by construction), check the
    signer address against the referenced output's address, then the
    signature.  `sigOk` is Ed25519 verification (external `ring` crate). -/
def checkSigs (hsh : Bytes → Bytes) (sigOk : Bytes → Bytes → Bytes → Bool)
    (serializedTx : Bytes) : List SignedTxIn → List TxOut → Except Error Unit
  | [], _ => .ok ()
  | _ :: _, [] => .ok ()
  | i :: irest, t :: trest =>
    if addressFromPubKey hsh i.sigPublicKey ≠ t.toAddress then
      .error .InvalidAddress
    else if sigOk i.sigPublicKey serializedTx i.txSignature then
      checkSigs hsh sigOk serializedTx irest trest
    else
      .error .CryptoFailure

/-- transaction.rs `SignedTx::verify`. -/
def SignedTx.verify (hsh : Bytes → Bytes) (sigOk : Bytes → Bytes → Bytes → Bool)
    (store : UtxoStore) (tx : SignedTx) : Except Error Nat :=
  match lookupAll store tx.input with
  | none => .error .UtxoNotFound
  | some prevTxOuts =>
    match sumU32 (prevTxOuts.map TxOut.amount) with
    | none => .error .Overflow
    | some inAmount =>
      match sumU32 (tx.output.map TxOut.amount) with
      | none => .error .Overflow
      | some outAmount =>
        if inAmount < outAmount then .error .InvalidTxAmount
        else
          let serialized := serializeRawTx tx.cloneWithoutSignatures
          match checkSigs hsh sigOk serialized tx.input prevTxOuts with
          | .error e => .error e
          | .ok _ => .ok (inAmount - outAmount)

/-- blockchain.rs `CoinbaseTx(pub TxOut)`. -/
structure CoinbaseTx where
  out : TxOut
deriving DecidableEq

/-- blockchain.rs `Body { coinbase_tx, transactions }`. -/
structure Body where
  coinbaseTx : CoinbaseTx
  transactions : List SignedTx
deriving DecidableEq

/-- blockchain.rs `COINBASE_AMOUNT` (the spec's `BASE_REWARD`). -/
def coinbaseAmount : Nat := 1000

/-- Serialization of a `Body`: coinbase output then the transaction list. -/
def serializeBody (b : Body) : Bytes :=
  serializeTxOut b.coinbaseTx.out ++ serializeSeq serializeSignedTx b.transactions

/-- The fee-accumulation loop of `Body::verify` in blockchain.rs:
    `fees += transaction.verify(utxo_store)?` with checked u32 addition. -/
def feesAcc (hsh : Bytes → Bytes) (sigOk : Bytes → Bytes → Bytes → Bool)
    (store : UtxoStore) : List SignedTx → Nat → Except Error Nat
  | [], acc => .ok acc
  | t :: rest, acc =>
    match t.verify hsh sigOk store with
    | .error e => .error e
    | .ok f =>
      match addU32 acc f with
      | none => .error .Overflow
      | some a => feesAcc hsh sigOk store rest a

/-- blockchain.rs `Body::verify` followed by `Body::verify_coinbase_tx`:
    the coinbase amount must equal `COINBASE_AMOUNT + fees`. -/
def Body.verify (hsh : Bytes → Bytes) (sigOk : Bytes → Bytes → Bytes → Bool)
    (store : UtxoStore) (b : Body) : Except Error Unit :=
  match feesAcc hsh sigOk store b.transactions 0 with
  | .error e => .error e
  | .ok fees =>
    match addU32 coinbaseAmount fees with
    | none => .error .Overflow
    | some total =>
      if b.coinbaseTx.out.amount ≠ total then .error .InvalidCoinbaseAmount
      else .ok ()

/-- blockchain.rs `HeaderHashedContent` (the spec's `HeaderCore`).  The
    difficulty is its 32-byte threshold. -/
structure HeaderCore where
  nonce : Nat
  difficulty : Bytes
  previousBlockHash : Bytes
  height : Nat
  bodyHash : Bytes
deriving DecidableEq

/-- Serialization of the header pre-image, in declared field order:
    `nonce || difficulty || previous_block_hash || height || body_hash`. -/
def serializeCore (c : HeaderCore) : Bytes :=
  natToBytes 8 c.nonce ++ c.difficulty ++ c.previousBlockHash ++
    natToBytes 4 c.height ++ c.bodyHash

/-- blockchain.rs `Header`: the cached hash plus the hashed content. -/
structure Header where
  hash : Bytes
  hashedContent : HeaderCore
deriving DecidableEq

/-- blockchain.rs `Difficulty::is_lower_than(hash)`:
    `&self.threshold < hash.as_ref()` (byte-wise). -/
def isLowerThan (threshold h : Bytes) : Bool :=
  bytesLt threshold h

/-- blockchain.rs `Header::verify`: recompute the hash of the hashed
    content; `InvalidHeaderHash` when it differs from the cached hash,
    `HashIsTooHigh` when the difficulty threshold is lower than the hash. -/
def Header.verify (hsh : Bytes → Bytes) (h : Header) : Except Error Unit :=
  let computedHash := hsh (serializeCore h.hashedContent)
  if computedHash ≠ h.hash then .error .InvalidHeaderHash
  else if isLowerThan h.hashedContent.difficulty computedHash then
    .error .HashIsTooHigh
  else .ok ()

/-- blockchain.rs `Block`. -/
structure Block where
  header : Header
  body : Body
deriving DecidableEq

/-- blockchain.rs `Block::verify`: header, body, then the stored body
    digest against the body bytes. -/
def Block.verify (hsh : Bytes → Bytes) (sigOk : Bytes → Bytes → Bytes → Bool)
    (store : UtxoStore) (b : Block) : Except Error Unit :=
  match b.header.verify hsh with
  | .error e => .error e
  | .ok _ =>
    match b.body.verify hsh sigOk store with
    | .error e => .error e
    | .ok _ =>
      if hsh (serializeBody b.body) = b.header.hashedContent.bodyHash then
        .ok ()
      else .error .HeaderAndBodyHashMismatch

/-- blockchain.rs `Chain { head, tail: Option<Arc<Chain>> }`; the two
    constructors are the `tail == None` and `tail == Some` cases (the
    `Arc` sharing is irrelevant to validation). -/
inductive Chain where
  | root (head : Block)
  | grown (head : Block) (tail : Chain)
deriving DecidableEq

/-- Head block of a chain. -/
def Chain.head : Chain → Block
  | .root b => b
  | .grown b _ => b

/-- blockchain.rs `Chain::verify`, faithfully including its tail-link
    comparisons: with a tail present it compares the tail header's
    `previous_block_hash` against the head header's `previous_block_hash`
    (sic — not against the tail header's own hash), then the
    difficulties, then the heights, and recurses; at the root it compares
    the head hash against the expected genesis hash. -/
def Chain.verify (hsh : Bytes → Bytes) (sigOk : Bytes → Bytes → Bytes → Bool)
    (store : UtxoStore) (expectedGenesisHash : Bytes) :
    Chain → Except Error Unit
  | .root b =>
    match b.verify hsh sigOk store with
    | .error e => .error e
    | .ok _ =>
      if b.header.hash = expectedGenesisHash then .ok ()
      else .error .InvalidGenesis
  | .grown b t =>
    match b.verify hsh sigOk store with
    | .error e => .error e
    | .ok _ =>
      let tHeader := t.head.header
      let hHeader := b.header
      if tHeader.hashedContent.previousBlockHash ≠
          hHeader.hashedContent.previousBlockHash then
        .error .HeadAndTailHashMismatch
      else if tHeader.hashedContent.difficulty ≠
          hHeader.hashedContent.difficulty then
        .error .InvalidDifficulty
      else if tHeader.hashedContent.height + 1 ≠
          hHeader.hashedContent.height then
        .error .InvalidHeight
      else t.verify hsh sigOk store expectedGenesisHash

/-- blockchain.rs `Difficulty::min_difficulty`: all 32 bytes `0xFF`. -/
def minDifficulty : Bytes := List.replicate 32 255

/-- blockchain.rs `Difficulty::divide_threshold_by_two` (the body of
    `increase()`): scan past leading zero bytes (running off the end is
    the "Exceeded the maximum difficulty" panic, modelled as `none`),
    integer-divide the first non-zero byte by two, and when the division
    yields zero set the following byte to `U8_MAX / 2 = 127` (panicking,
    i.e. `none`, when there is no following byte). -/
def divideThresholdByTwo : Bytes → Option Bytes
  | [] => none
  | b :: rest =>
    if b = 0 then (divideThresholdByTwo rest).map (fun r => 0 :: r)
    else if b / 2 = 0 then
      match rest with
      | [] => none
      | _ :: restTail => some (0 :: 127 :: restTail)
    else some (b / 2 :: rest)

/-- `k` successive calls to `increase()`. -/
def increaseIter : Nat → Bytes → Option Bytes
  | 0, t => some t
  | k + 1, t => (divideThresholdByTwo t).bind (increaseIter k)

/-- The threshold read as a 256-bit big-endian integer. -/
def beValue (l : Bytes) : Nat :=
  l.foldl (fun a b => a * 256 + b) 0

end BtcLike

namespace Net

/-- The `&'static str` errors of src/blockchain/mod.rs, as an enumeration:
    `"Invalid hash"`, `"Hash higher than difficulty"`, `"Hash mismatch"`,
    `"Invalid genesis"`, `"Invalid difficulty"`. -/
inductive NErr where
  | invalidHash
  | hashHigherThanDifficulty
  | hashMismatch
  | invalidGenesis
  | invalidDifficulty
deriving DecidableEq

/-- src/blockchain/mod.rs `Block`: the PoW hash is SHA-256 over the
    concatenated `(node_id, nonce, difficulty, previous_block_hash)`
    fields; the digest function `hb` is the external `ring` crate and is
    a parameter of every operation below.  The difficulty is its 32-byte
    threshold. -/
structure NBlock where
  nodeId : Nat
  nonce : Nat
  hash : Bytes
  difficulty : Bytes
  previousBlockHash : Bytes
deriving DecidableEq

/-- src/blockchain/mod.rs `Block::new`: cache the hash of the fields. -/
def NBlock.new (hb : Nat → Nat → Bytes → Bytes → Bytes)
    (nodeId nonce : Nat) (difficulty previousBlockHash : Bytes) : NBlock :=
  { nodeId := nodeId
    nonce := nonce
    hash := hb nodeId nonce difficulty previousBlockHash
    difficulty := difficulty
    previousBlockHash := previousBlockHash }

/-- src/blockchain/mod.rs `Block::validate`: the cached hash must be
    below the difficulty (else `HEAD_ERROR_HASH_HIGHER_THAN_DIFFICULTY`),
    and recomputing the hash must reproduce it (else
    `HEAD_ERROR_INVALID_HASH`). -/
def NBlock.validate (hb : Nat → Nat → Bytes → Bytes → Bytes)
    (b : NBlock) : Except NErr Unit :=
  if bytesLt b.hash b.difficulty then
    if hb b.nodeId b.nonce b.difficulty b.previousBlockHash = b.hash then
      .ok ()
    else .error .invalidHash
  else .error .hashHigherThanDifficulty

/-- src/blockchain/mod.rs `Chain { head, tail: Option<Arc<Chain>>, height }`;
    the two constructors are the `tail == None` and `tail == Some` cases.
    The height is a stored field, exactly as in the source. -/
inductive NChain where
  | root (head : NBlock) (height : Nat)
  | grown (head : NBlock) (height : Nat) (tail : NChain)
deriving DecidableEq

/-- Head block of a chain. -/
def NChain.head : NChain → NBlock
  | .root b _ => b
  | .grown b _ _ => b

/-- Stored height of a chain. -/
def NChain.height : NChain → Nat
  | .root _ h => h
  | .grown _ h _ => h

/-- src/blockchain/mod.rs `Chain::hashes_match`: the tail head's hash
    equals the new block's `previous_block_hash`. -/
def NChain.hashesMatch (tail : NChain) (b : NBlock) : Bool :=
  tail.head.hash = b.previousBlockHash

/-- src/blockchain/mod.rs `Chain::validate_head`: with a tail, validate
    the head block, require matching hashes (else
    `CHAIN_ERROR_HASH_MISMATCH`) and equal difficulties (else
    `CHAIN_ERROR_INVALID_DIFFICULTY`); without a tail, succeed. -/
def NChain.validateHead (hb : Nat → Nat → Bytes → Bytes → Bytes) :
    NChain → Except NErr Unit
  | .root _ _ => .ok ()
  | .grown b _ t =>
    match b.validate hb with
    | .error e => .error e
    | .ok _ =>
      if NChain.hashesMatch t b then
        if t.head.difficulty = b.difficulty then .ok ()
        else .error .invalidDifficulty
      else .error .hashMismatch

/-- src/blockchain/mod.rs `Chain::expand`: wrap the block on top of the
    chain with `height + 1` and validate the new head. -/
def NChain.expand (hb : Nat → Nat → Bytes → Bytes → Bytes)
    (c : NChain) (b : NBlock) : Except NErr NChain :=
  let newChain := NChain.grown b (c.height + 1) c
  match newChain.validateHead hb with
  | .error e => .error e
  | .ok _ => .ok newChain

/-- src/blockchain/miner.rs `MiningState`. -/
structure MiningState where
  chain : NChain
  nonce : Nat
  nodeId : Nat
deriving DecidableEq

/-- src/blockchain/miner.rs `MiningResult`. -/
inductive MiningResult where
  | success (c : NChain)
  | failure
deriving DecidableEq

/-- src/blockchain/miner.rs `mine`: increment the nonce, build a candidate
    block on the current head (same difficulty, previous hash = head
    hash), and try `Chain::expand`; any expansion error is `Failure`. -/
def mine (hb : Nat → Nat → Bytes → Bytes → Bytes)
    (s : MiningState) : MiningResult × MiningState :=
  let s2 : MiningState := { s with nonce := s.nonce + 1 }
  let block := NBlock.new hb s.nodeId s2.nonce s.chain.head.difficulty
    s.chain.head.hash
  match NChain.expand hb s.chain block with
  | .ok minedChain => (.success minedChain, s2)
  | .error _ => (.failure, s2)

/-- An event of the miner's merged stream: a chain update pushed by the
    node, or a mining tick. -/
inductive MinerEvent where
  | chainUpdate (c : NChain)
  | tick
deriving DecidableEq

/-- The `map` closure of `mining_stream` in src/blockchain/miner.rs,
    combined with the trailing `filter_map`: a chain update is adopted
    (nonce reset) iff strictly higher, and emits nothing; a tick runs
    `mine`, emitting the new chain exactly on success. -/
def minerStep (hb : Nat → Nat → Bytes → Bytes → Bytes)
    (s : MiningState) (e : MinerEvent) : Option NChain × MiningState :=
  match e with
  | .chainUpdate u =>
    if s.chain.height < u.height then
      (none, { s with chain := u, nonce := 0 })
    else (none, s)
  | .tick =>
    match mine hb s with
    | (.success minedChain, s2) => (some minedChain, s2)
    | (.failure, s2) => (none, s2)

/-- src/blockchain/node.rs `Peer`: the peer's known chain height and
    closed flag.  `sendOk` models the environment: whether the next
    `unbounded_send` to this peer's channel succeeds (it fails when the
    peer's receiver was dropped). -/
structure Peer where
  knownChainHeight : Nat
  sendOk : Bool
  isClosed : Bool
deriving DecidableEq

/-- The per-peer body of `PowNode::propagate`'s `for_each`: when the new
    chain is strictly higher than the peer's known height, send it; on
    success record the new known height, on failure mark the peer closed.
    The second component records whether a send was performed. -/
def propagateOne (chainHeight : Nat) (p : Peer) : Peer × Bool :=
  if p.knownChainHeight < chainHeight then
    if p.sendOk then ({ p with knownChainHeight := chainHeight }, true)
    else ({ p with isClosed := true }, true)
  else (p, false)

/-- Result of `PowNode::propagate`: the retained peer list, the per-peer
    send record (aligned with the input list), and whether the node
    adopted the chain (`adopted` covers both effects of the final branch:
    notifying the miner and replacing `self.chain`). -/
structure PropagateOutcome where
  peers : List Peer
  sends : List Bool
  adopted : Bool
deriving DecidableEq

/-- src/blockchain/node.rs `PowNode::propagate`: walk the peers, retain
    the non-closed ones, then adopt the chain iff it is strictly higher
    than the node's current chain. -/
def propagate (chainHeight currentHeight : Nat) (peers : List Peer) :
    PropagateOutcome :=
  let stepped := peers.map (propagateOne chainHeight)
  { peers := (stepped.map Prod.fst).filter (fun p => !p.isClosed)
    sends := stepped.map Prod.snd
    adopted := currentHeight < chainHeight }

end Net

namespace FlatSel

/-
  Shallow embedding of src/flatten_select.rs.  A futures 0.1 child stream
  is modelled by the script of results its successive `poll()` calls
  return (an exhausted script keeps answering not-ready); the outer
  stream-of-streams is modelled the same way, its items being child
  scripts.  `poll` below is the pure state transformer of
  `FlattenSelect::poll` (stream errors, which only re-raise the child's
  error, are not modelled).
-/

/-- One `poll()` answer of a child stream: `Ready(Some(item))`,
    `Ready(None)` (stream finished), or `NotReady`. -/
inductive PollRes where
  | ready (item : Nat)
  | readyNone
  | notReady
deriving DecidableEq

/-- A child stream: the script of its successive poll answers. -/
abbrev Child := List PollRes

/-- One `poll()` answer of the outer stream: a new child stream,
    `Ready(None)`, or `NotReady`. -/
inductive OuterRes where
  | newChild (c : Child)
  | outerDone
  | outerPending
deriving DecidableEq

/-- The fields of `FlattenSelect`. -/
structure FS where
  stream : List OuterRes
  stillHasChildren : Bool
  children : List Child
  lastPolledIndex : Nat
deriving DecidableEq

/-- What one `FlattenSelect::poll` call returns upward. -/
inductive PollOut where
  | yielded (item : Nat)
  | finished
  | pend
deriving DecidableEq

/-- Poll a child: consume the head of its script. -/
def pollChild : Child → PollRes × Child
  | [] => (.notReady, [])
  | r :: rest => (r, rest)

/-- The `for index in range_start..range_end` loop of
    `FlattenSelect::poll`, over the precomputed index list: reduce the
    index modulo `len` (the children count fixed before the loop), record
    it as `last_polled_index`, poll that child; a `Ready(Some(item))`
    returns immediately (dropping the pending removals, as the source's
    early `return` does), `Ready(None)` queues the index for removal,
    `NotReady` moves on. -/
def pollLoop (len : Nat) : List Nat → List Child → Nat → List Nat →
    Option Nat × List Child × Nat × List Nat
  | [], children, last, toRemove => (none, children, last, toRemove)
  | index :: rest, children, _, toRemove =>
    let idx := index % len
    let cur := (children.get? idx).getD []
    match pollChild cur with
    | (.ready item, c2) => (some item, children.set idx c2, idx, toRemove)
    | (.readyNone, c2) =>
      pollLoop len rest (children.set idx c2) idx (toRemove ++ [idx])
    | (.notReady, c2) =>
      pollLoop len rest (children.set idx c2) idx toRemove

/-- Insert into a descending-sorted list. -/
def insertDesc (n : Nat) : List Nat → List Nat
  | [] => [n]
  | m :: rest => if m ≤ n then n :: m :: rest else m :: insertDesc n rest

/-- Sort descending: the source's `to_remove.sort()` followed by
    `.iter().rev()`. -/
def sortDesc (l : List Nat) : List Nat :=
  l.foldr insertDesc []

/-- The removal pass of `FlattenSelect::poll`: drop finished children
    from the highest index to the lowest, shifting `last_polled_index`
    down past each removed index below it. -/
def removeAll : List Nat → List Child → Nat → List Child × Nat
  | [], children, last => (children, last)
  | r :: rest, children, last =>
    removeAll rest (children.eraseIdx r)
      (if r < last then last - 1 else last)

/-- src/flatten_select.rs `FlattenSelect::poll`:
    1. while the outer stream may still produce children, poll it once
       (a new child is appended; `Ready(None)` clears
       `still_has_children`);
    2. finish when no children remain and none can arrive;
    3. otherwise loop over `range_start..range_end` where
       `range_start = last_polled_index + 1` and
       `range_end = range_start + children_len - 1` — that is,
       `children_len - 1` iterations;
    4. apply the queued removals and report not-ready. -/
def poll (s : FS) : PollOut × FS :=
  let afterOuter :=
    if s.stillHasChildren then
      match s.stream with
      | [] => (s.stream, s.stillHasChildren, s.children)
      | .newChild c :: rest => (rest, s.stillHasChildren, s.children ++ [c])
      | .outerDone :: rest => (rest, false, s.children)
      | .outerPending :: rest => (rest, s.stillHasChildren, s.children)
    else (s.stream, s.stillHasChildren, s.children)
  let stream2 := afterOuter.1
  let still2 := afterOuter.2.1
  let children1 := afterOuter.2.2
  let len := children1.length
  if !still2 && len == 0 then
    (.finished, { stream := stream2, stillHasChildren := still2,
                  children := children1,
                  lastPolledIndex := s.lastPolledIndex })
  else if 0 < len then
    let rangeStart := s.lastPolledIndex + 1
    let idxs := (List.range (len - 1)).map (fun i => rangeStart + i)
    match pollLoop len idxs children1 s.lastPolledIndex [] with
    | (some item, cs, last2, _) =>
      (.yielded item, { stream := stream2, stillHasChildren := still2,
                        children := cs, lastPolledIndex := last2 })
    | (none, cs, last2, toRemove) =>
      let removed := removeAll (sortDesc toRemove) cs last2
      (.pend, { stream := stream2, stillHasChildren := still2,
                children := removed.1, lastPolledIndex := removed.2 })
  else
    (.pend, { stream := stream2, stillHasChildren := still2,
              children := children1,
              lastPolledIndex := s.lastPolledIndex })

end FlatSel

/-
  Concrete instances used by witnesses and counterexamples.  The digest,
  signing and signature-verification parameters are instantiated with
  simple total stand-ins; nothing below depends on cryptographic
  properties.
-/

namespace BtcLike

/-- Specification-side fee collection, used to state the coinbase
    invariant: the list of fees of the transactions, or the first
    verification error ("every transaction verifies" holds exactly when
    this is `ok`).  This is the spec's-words counterpart against which
    the code's accumulating `Body.verify` is compared. -/
def feesList (hsh : Bytes → Bytes) (sigOk : Bytes → Bytes → Bytes → Bool)
    (store : UtxoStore) : List SignedTx → Except Error (List Nat)
  | [] => .ok []
  | t :: rest =>
    match t.verify hsh sigOk store with
    | .error e => .error e
    | .ok f =>
      match feesList hsh sigOk store rest with
      | .error e => .error e
      | .ok fs => .ok (f :: fs)

/-- Injective digest stand-in for SHA-256; its outputs start with a zero
    byte, hence never exceed a threshold starting with a non-zero byte. -/
def hashConc : Bytes → Bytes := fun l => 0 :: l

/-- Signature verification that always succeeds. -/
def sigAlways : Bytes → Bytes → Bytes → Bool := fun _ _ _ => true

/-- Signature verification that always fails. -/
def sigNever : Bytes → Bytes → Bytes → Bool := fun _ _ _ => false

/-- The empty UTXO store. -/
def storeEmpty : UtxoStore := fun _ _ => none

/-- Signing stand-in: prepend the keypair identifier to the message. -/
def sgnC : Nat → Bytes → Bytes := fun k m => k :: m

/-- Public-key stand-in: the keypair identifier as a one-byte key. -/
def pkfC : Nat → Bytes := fun k => [k]

/-- A raw transaction with two distinguishable inputs. -/
def rawC : RawTx := { input := [⟨[1], 0⟩, ⟨[2], 0⟩], output := [] }

/-- A UTXO store holding, everywhere, an output of amount `2^31` owned by
    the key `[5]` (its address under `hashConc` is `[0, 5]`). -/
def storeBig : UtxoStore := fun _ _ => some ⟨2147483648, [0, 5]⟩

/-- A transaction spending one such output entirely as fee (`2^31`). -/
def txBig : SignedTx := { input := [⟨[1], 0, [9], [5]⟩], output := [] }

/-- A body whose two transactions carry fees of `2^31` each, so that the
    fee accumulation overflows u32. -/
def bodyBig : Body := { coinbaseTx := ⟨⟨1000, [3]⟩⟩, transactions := [txBig, txBig] }

/-- A transaction referencing a UTXO the empty store does not hold. -/
def txMiss : SignedTx := { input := [⟨[4], 0, [0], [0]⟩], output := [] }

/-- A UTXO store holding, everywhere, an output of amount `2^32 - 1`. -/
def storeOv : UtxoStore := fun _ _ => some ⟨4294967295, [0, 5]⟩

/-- A transaction with two inputs, whose referenced amounts sum past the
    u32 range. -/
def txOv : SignedTx :=
  { input := [⟨[1], 0, [9], [5]⟩, ⟨[1], 1, [9], [5]⟩], output := [] }

/-- A transaction whose single output exceeds its single `2^31` input. -/
def txPoor : SignedTx :=
  { input := [⟨[1], 0, [9], [5]⟩], output := [⟨2147483649, [0, 5]⟩] }

/-- A transaction-free body with the exact coinbase reward. -/
def bodyOk : Body := { coinbaseTx := ⟨⟨1000, [3]⟩⟩, transactions := [] }

/-- A transaction-free body with a wrong coinbase reward. -/
def bodyBad : Body := { coinbaseTx := ⟨⟨999, [3]⟩⟩, transactions := [] }

/-- Digest stand-in returning a constant one-byte value. -/
def hshW : Bytes → Bytes := fun _ => [1]

/-- A header whose cached hash `[1]` matches `hshW` and strictly exceeds
    its difficulty threshold `[0]`. -/
def hdrW : Header := { hash := [1], hashedContent := ⟨0, [0], [], 0, []⟩ }

/-- Digest stand-in returning the all-`0xFF` 32-byte value. -/
def hshT : Bytes → Bytes := fun _ => List.replicate 32 255

/-- A header whose cached hash matches `hshT` and EQUALS its difficulty
    threshold. -/
def hdrT : Header :=
  { hash := List.replicate 32 255
    hashedContent := ⟨0, List.replicate 32 255, [], 0, []⟩ }

/-- The all-zero 32-byte hash (`Hash::min()`). -/
def zeroHash : Bytes := List.replicate 32 0

/-- A coinbase address. -/
def addrA : Bytes := List.replicate 32 7

/-- Another coinbase address. -/
def addrB : Bytes := List.replicate 32 9

/-- Genesis body: coinbase of `COINBASE_AMOUNT` to `addrA`, no
    transactions. -/
def bodyA : Body := ⟨⟨⟨1000, addrA⟩⟩, []⟩

/-- Genesis header content: previous hash is the zero hash, height 0. -/
def coreA : HeaderCore := ⟨0, minDifficulty, zeroHash, 0, hashConc (serializeBody bodyA)⟩

/-- Genesis header with its cached hash. -/
def hdrA : Header := ⟨hashConc (serializeCore coreA), coreA⟩

/-- Genesis block. -/
def blkA : Block := ⟨hdrA, bodyA⟩

/-- Height-1 body. -/
def bodyB : Body := ⟨⟨⟨1000, addrB⟩⟩, []⟩

/-- Height-1 header content whose `previous_block_hash` IS the genesis
    header's hash: correctly linked in the sense of the specification. -/
def coreB : HeaderCore := ⟨0, minDifficulty, hdrA.hash, 1, hashConc (serializeBody bodyB)⟩

/-- Height-1 header. -/
def hdrB : Header := ⟨hashConc (serializeCore coreB), coreB⟩

/-- Correctly linked two-block chain. -/
def chainAB : Chain := .grown ⟨hdrB, bodyB⟩ (.root blkA)

/-- Height-1 header content whose `previous_block_hash` is the zero hash:
    NOT linked to the genesis block's hash. -/
def coreB2 : HeaderCore := ⟨0, minDifficulty, zeroHash, 1, hashConc (serializeBody bodyB)⟩

/-- Unlinked height-1 header. -/
def hdrB2 : Header := ⟨hashConc (serializeCore coreB2), coreB2⟩

/-- Two-block chain whose head does not point at its tail's hash. -/
def chainAB2 : Chain := .grown ⟨hdrB2, bodyB⟩ (.root blkA)

end BtcLike

namespace Net

/-- Digest stand-in for the miner witness: every candidate hashes to
    `[1]`. -/
def hb0 : Nat → Nat → Bytes → Bytes → Bytes := fun _ _ _ _ => [1]

/-- A mining state over a root chain of difficulty `[0]`, under which no
    candidate hash can satisfy the proof of work. -/
def s0 : MiningState :=
  { chain := .root (NBlock.new hb0 1 0 [0] [0]) 0, nonce := 0, nodeId := 1 }

end Net

namespace FlatSel

/-- A `FlattenSelect` whose outer stream is quiescent and that holds
    exactly one child, which would yield `42` when polled. -/
def starvedFS : FS :=
  { stream := [], stillHasChildren := true
    children := [[PollRes.ready 42]], lastPolledIndex := 0 }

end FlatSel

/-
  ===================  THEOREMS  ===================
  Helper lemmas first, then one theorem per claim (with its witness or
  counterexample where applicable).
-/

theorem sumU32From_ok (l : List Nat) : ∀ acc, acc + l.sum < 4294967296 →
    sumU32From acc l = some (acc + l.sum) := by
  induction l with
  | nil => intro acc _; simp [sumU32From]
  | cons x rest ih =>
    intro acc hlt
    simp only [List.sum_cons] at hlt
    have hx : acc + x < 4294967296 := by omega
    simp only [sumU32From, addU32, hx, if_pos]
    have hrec := ih (acc + x) (by omega)
    rw [hrec]
    congr 1
    simp only [List.sum_cons]
    omega

theorem sumU32From_overflow (l : List Nat) : ∀ acc, acc < 4294967296 →
    4294967296 ≤ acc + l.sum → sumU32From acc l = none := by
  induction l with
  | nil => intro acc hacc h; simp [List.sum_nil] at h; omega
  | cons x rest ih =>
    intro acc hacc hge
    simp only [List.sum_cons] at hge
    by_cases hx : acc + x < 4294967296
    · simp only [sumU32From, addU32, hx, if_pos]
      exact ih (acc + x) hx (by omega)
    · simp [sumU32From, addU32, hx]

/-- Full characterization of the checked u32 sum. -/
theorem sumU32_eq_ite (l : List Nat) :
    sumU32 l = if l.sum < 4294967296 then some l.sum else none := by
  by_cases h : l.sum < 4294967296
  · rw [if_pos h]
    have := sumU32From_ok l 0 (by omega)
    simpa [sumU32] using this
  · rw [if_neg h]
    have := sumU32From_overflow l 0 (by omega) (by omega)
    simpa [sumU32] using this

namespace BtcLike

/-- The lookup loop misses exactly when some input's referenced output is
    absent from the store. -/
theorem lookupAll_eq_none_iff (store : UtxoStore) (l : List SignedTxIn) :
    lookupAll store l = none ↔
      ∃ i ∈ l, store i.prevTxHash i.prevTxOutputIndex = none := by
  induction l with
  | nil => simp [lookupAll]
  | cons i rest ih =>
    cases hfind : store i.prevTxHash i.prevTxOutputIndex with
    | none =>
      simp only [lookupAll, hfind]
      constructor
      · intro _; exact ⟨i, List.mem_cons_self i rest, hfind⟩
      · intro _; trivial
    | some t =>
      simp only [lookupAll, hfind]
      constructor
      · intro hmap
        cases hrest : lookupAll store rest with
        | none => obtain ⟨j, hj, hjn⟩ := ih.mp hrest
                  exact ⟨j, List.mem_cons_of_mem i hj, hjn⟩
        | some l2 => rw [hrest] at hmap; simp [Option.map] at hmap
      · intro hex
        obtain ⟨j, hj, hjn⟩ := hex
        rcases List.mem_cons.mp hj with hji | hjr
        · subst hji; rw [hjn] at hfind; cases hfind
        · rw [ih.mpr ⟨j, hjr, hjn⟩]; simp [Option.map]

/-- C10: for every UTXO store and every digest and signature-verification
    function, a `SignedTx` with no inputs whose outputs sum to 0 passes
    `SignedTx::verify` with fee 0; since this holds for EVERY `sigOk`
    (including the everywhere-false one) and every `hsh`, no signature or
    address check is consulted. -/
theorem c10_empty_tx_verifies (hsh : Bytes → Bytes)
    (sigOk : Bytes → Bytes → Bytes → Bool) (store : UtxoStore)
    (tx : SignedTx) (h1 : tx.input = [])
    (h2 : (tx.output.map TxOut.amount).sum = 0) :
    tx.verify hsh sigOk store = .ok 0 := by
  unfold SignedTx.verify
  rw [h1]
  simp [lookupAll, sumU32_eq_ite, h2, checkSigs]

/-- C10 witness: the transaction with no inputs and no outputs, under the
    empty store and the always-failing signature verifier. -/
theorem c10_witness :
    SignedTx.verify hashConc sigNever storeEmpty ⟨[], []⟩ = .ok 0 :=
  c10_empty_tx_verifies hashConc sigNever storeEmpty ⟨[], []⟩ rfl rfl

/-- Inversion for a successful checked sum. -/
theorem sumU32_some_inv (l : List Nat) (v : Nat) (h : sumU32 l = some v) :
    v = l.sum ∧ l.sum < 4294967296 := by
  rw [sumU32_eq_ite] at h
  by_cases hc : l.sum < 4294967296
  · rw [if_pos hc] at h
    injection h with h2
    exact ⟨h2.symm, hc⟩
  · rw [if_neg hc] at h; cases h

/-- Inversion for an overflowing checked sum. -/
theorem sumU32_none_inv (l : List Nat) (h : sumU32 l = none) :
    4294967296 ≤ l.sum := by
  rw [sumU32_eq_ite] at h
  by_cases hc : l.sum < 4294967296
  · rw [if_pos hc] at h; cases h
  · omega

/-- `SignedTx::verify` after a successful first loop: the rest of the
    function, with the referenced outputs in hand. -/
theorem verify_with_lookup (hsh : Bytes → Bytes)
    (sigOk : Bytes → Bytes → Bytes → Bool) (store : UtxoStore)
    (tx : SignedTx) (prevs : List TxOut)
    (hsome : lookupAll store tx.input = some prevs) :
    tx.verify hsh sigOk store =
      (match sumU32 (prevs.map TxOut.amount) with
       | none => .error .Overflow
       | some inAmount =>
         match sumU32 (tx.output.map TxOut.amount) with
         | none => .error .Overflow
         | some outAmount =>
           if inAmount < outAmount then .error .InvalidTxAmount
           else
             match checkSigs hsh sigOk
                 (serializeRawTx tx.cloneWithoutSignatures) tx.input prevs with
             | .error e => .error e
             | .ok _ => .ok (inAmount - outAmount)) := by
  unfold SignedTx.verify
  rw [hsome]

/-- C5: `SignedTx::verify` fails `UtxoNotFound` when some input's
    referenced output is absent; otherwise, with `in` the sum of the
    referenced outputs' amounts and `out` the sum of the outputs'
    amounts (u32 sums, overflow erroring), it fails `Overflow` when `in`
    overflows u32, fails `InvalidTxAmount` when `in < out`, and on
    success returns the fee `in - out`. -/
theorem c5_verify_spec (hsh : Bytes → Bytes)
    (sigOk : Bytes → Bytes → Bytes → Bool) (store : UtxoStore)
    (tx : SignedTx) :
    ((∃ i ∈ tx.input, store i.prevTxHash i.prevTxOutputIndex = none) →
      tx.verify hsh sigOk store = .error .UtxoNotFound) ∧
    (∀ prevs, lookupAll store tx.input = some prevs →
      ((4294967296 ≤ (prevs.map TxOut.amount).sum →
        tx.verify hsh sigOk store = .error .Overflow) ∧
       ((prevs.map TxOut.amount).sum < 4294967296 →
        (tx.output.map TxOut.amount).sum < 4294967296 →
        (prevs.map TxOut.amount).sum < (tx.output.map TxOut.amount).sum →
        tx.verify hsh sigOk store = .error .InvalidTxAmount) ∧
       (∀ f, tx.verify hsh sigOk store = .ok f →
        (tx.output.map TxOut.amount).sum ≤ (prevs.map TxOut.amount).sum ∧
        f = (prevs.map TxOut.amount).sum - (tx.output.map TxOut.amount).sum))) := by
  constructor
  · intro hmiss
    have hnone := (lookupAll_eq_none_iff store tx.input).mpr hmiss
    unfold SignedTx.verify
    rw [hnone]
  · intro prevs hsome
    simp only [verify_with_lookup hsh sigOk store tx prevs hsome]
    cases hsum1 : sumU32 (prevs.map TxOut.amount) with
    | none =>
      have hge := sumU32_none_inv _ hsum1
      refine ⟨fun _ => rfl, fun hin _ _ => absurd hin (by omega),
        fun f hok => by simp at hok⟩
    | some inAmount =>
      obtain ⟨hinv, hinlt⟩ := sumU32_some_inv _ _ hsum1
      subst hinv
      cases hsum2 : sumU32 (tx.output.map TxOut.amount) with
      | none =>
        have hge2 := sumU32_none_inv _ hsum2
        refine ⟨fun hof => absurd hof (by omega),
          fun _ hout _ => absurd hout (by omega),
          fun f hok => by simp at hok⟩
      | some outAmount =>
        obtain ⟨houtv, houtlt⟩ := sumU32_some_inv _ _ hsum2
        subst houtv
        refine ⟨fun hof => absurd hof (by omega), fun _ _ hlt => ?_, ?_⟩
        · simp [hlt]
        · intro f hok
          by_cases hlt : (prevs.map TxOut.amount).sum <
              (tx.output.map TxOut.amount).sum
          · simp [hlt] at hok
          · simp only [if_neg hlt] at hok
            cases hcs : checkSigs hsh sigOk
                (serializeRawTx tx.cloneWithoutSignatures) tx.input prevs with
            | error e => simp [hcs] at hok
            | ok u =>
              simp [hcs] at hok
              exact ⟨by omega, hok.symm⟩

/-- C5 witness: each branch of `c5_verify_spec` at a concrete input — a
    missing UTXO, an overflowing input sum, outputs exceeding inputs, and
    a successful verification returning the fee `2^31 - 0`. -/
theorem c5_witness :
    SignedTx.verify hashConc sigNever storeEmpty txMiss =
        .error .UtxoNotFound ∧
    SignedTx.verify hashConc sigAlways storeOv txOv = .error .Overflow ∧
    SignedTx.verify hashConc sigAlways storeBig txPoor =
        .error .InvalidTxAmount ∧
    ((0 : Nat) ≤ 2147483648 ∧ (2147483648 : Nat) = 2147483648 - 0) := by
  refine ⟨?_, ?_, ?_, ?_⟩
  · exact (c5_verify_spec hashConc sigNever storeEmpty txMiss).1 (by decide)
  · exact (((c5_verify_spec hashConc sigAlways storeOv txOv).2
      [⟨4294967295, [0, 5]⟩, ⟨4294967295, [0, 5]⟩] rfl).1) (by decide)
  · exact (((c5_verify_spec hashConc sigAlways storeBig txPoor).2
      [⟨2147483648, [0, 5]⟩] rfl).2.1) (by decide) (by decide) (by decide)
  · exact (((c5_verify_spec hashConc sigAlways storeBig txBig).2
      [⟨2147483648, [0, 5]⟩] rfl).2.2) 2147483648 rfl

/-- Inversion for a successful checked u32 addition. -/
theorem addU32_some_inv (a b c : Nat) (h : addU32 a b = some c) :
    c = a + b ∧ a + b < 4294967296 := by
  unfold addU32 at h
  by_cases hc : a + b < 4294967296
  · rw [if_pos hc] at h
    injection h with h2
    exact ⟨h2.symm, hc⟩
  · rw [if_neg hc] at h; cases h

/-- When every transaction verifies and the running fee total stays in
    u32 range, the accumulating loop returns the sum of the fees. -/
theorem feesAcc_of_ok (hsh : Bytes → Bytes)
    (sigOk : Bytes → Bytes → Bytes → Bool) (store : UtxoStore) :
    ∀ ts acc fs, feesList hsh sigOk store ts = .ok fs →
      acc + fs.sum < 4294967296 →
      feesAcc hsh sigOk store ts acc = .ok (acc + fs.sum) := by
  intro ts
  induction ts with
  | nil =>
    intro acc fs hf hlt
    simp [feesList] at hf
    subst hf
    simp [feesAcc]
  | cons t rest ih =>
    intro acc fs hf hlt
    simp only [feesList] at hf
    cases ht : t.verify hsh sigOk store with
    | error e => simp [ht] at hf
    | ok f =>
      simp [ht] at hf
      cases hr : feesList hsh sigOk store rest with
      | error e => simp [hr] at hf
      | ok fs2 =>
        simp [hr] at hf
        subst hf
        simp only [List.sum_cons] at hlt
        have hfb : acc + f < 4294967296 := by omega
        simp only [feesAcc, ht, addU32, hfb, if_pos]
        rw [ih (acc + f) fs2 hr (by omega)]
        congr 1
        simp only [List.sum_cons]
        omega

/-- When every transaction verifies but the running fee total leaves the
    u32 range, the accumulating loop overflows. -/
theorem feesAcc_of_overflow (hsh : Bytes → Bytes)
    (sigOk : Bytes → Bytes → Bytes → Bool) (store : UtxoStore) :
    ∀ ts acc fs, feesList hsh sigOk store ts = .ok fs →
      acc < 4294967296 → 4294967296 ≤ acc + fs.sum →
      feesAcc hsh sigOk store ts acc = .error .Overflow := by
  intro ts
  induction ts with
  | nil =>
    intro acc fs hf hacc hge
    simp [feesList] at hf
    subst hf
    simp [List.sum_nil] at hge
    omega
  | cons t rest ih =>
    intro acc fs hf hacc hge
    simp only [feesList] at hf
    cases ht : t.verify hsh sigOk store with
    | error e => simp [ht] at hf
    | ok f =>
      simp [ht] at hf
      cases hr : feesList hsh sigOk store rest with
      | error e => simp [hr] at hf
      | ok fs2 =>
        simp [hr] at hf
        subst hf
        simp only [List.sum_cons] at hge
        by_cases hfb : acc + f < 4294967296
        · simp only [feesAcc, ht, addU32, hfb, if_pos]
          exact ih (acc + f) fs2 hr hfb (by omega)
        · simp [feesAcc, ht, addU32, hfb]

/-- Inversion of a successful accumulating fee loop: every transaction
    verified and the result is the accumulator plus the fees. -/
theorem feesAcc_ok_inv (hsh : Bytes → Bytes)
    (sigOk : Bytes → Bytes → Bytes → Bool) (store : UtxoStore) :
    ∀ ts acc r, feesAcc hsh sigOk store ts acc = .ok r →
      ∃ fs, feesList hsh sigOk store ts = .ok fs ∧ r = acc + fs.sum := by
  intro ts
  induction ts with
  | nil =>
    intro acc r h
    simp [feesAcc] at h
    exact ⟨[], rfl, by simp [h]⟩
  | cons t rest ih =>
    intro acc r h
    simp only [feesAcc] at h
    cases ht : t.verify hsh sigOk store with
    | error e => simp [ht] at h
    | ok f =>
      simp [ht] at h
      cases hadd : addU32 acc f with
      | none => simp [hadd] at h
      | some a =>
        simp [hadd] at h
        obtain ⟨hav, halt⟩ := addU32_some_inv _ _ _ hadd
        obtain ⟨fs2, hr, hrs⟩ := ih a r h
        refine ⟨f :: fs2, ?_, ?_⟩
        · simp [feesList, ht, hr]
        · simp only [List.sum_cons]; omega

/-- C2 (amended): body validation succeeds exactly when every transaction
    verifies and the coinbase amount equals `COINBASE_AMOUNT` plus the sum
    of the fees; when the transactions verify, the total stays in u32
    range, and the coinbase amount differs, validation returns
    `InvalidCoinbaseAmount` (when the fee accumulation leaves the u32
    range the code's addition panics instead — `Overflow`).  The
    hypothesis on the coinbase amount records that it is a u32 in the
    source. -/
theorem c2_coinbase_spec (hsh : Bytes → Bytes)
    (sigOk : Bytes → Bytes → Bytes → Bool) (store : UtxoStore) (b : Body)
    (hamt : b.coinbaseTx.out.amount < 4294967296) :
    (Body.verify hsh sigOk store b = .ok () ↔
      ∃ fs, feesList hsh sigOk store b.transactions = .ok fs ∧
        b.coinbaseTx.out.amount = coinbaseAmount + fs.sum) ∧
    (∀ fs, feesList hsh sigOk store b.transactions = .ok fs →
      coinbaseAmount + fs.sum < 4294967296 →
      b.coinbaseTx.out.amount ≠ coinbaseAmount + fs.sum →
      Body.verify hsh sigOk store b = .error .InvalidCoinbaseAmount) := by
  have hcb : coinbaseAmount = 1000 := rfl
  constructor
  · constructor
    · intro hok
      unfold Body.verify at hok
      cases hacc : feesAcc hsh sigOk store b.transactions 0 with
      | error e => simp [hacc] at hok
      | ok fees =>
        simp [hacc] at hok
        cases hadd : addU32 coinbaseAmount fees with
        | none => simp [hadd] at hok
        | some total =>
          simp [hadd] at hok
          obtain ⟨htv, hltv⟩ := addU32_some_inv _ _ _ hadd
          obtain ⟨fs, hfl, hsum⟩ := feesAcc_ok_inv hsh sigOk store
            b.transactions 0 fees hacc
          refine ⟨fs, hfl, ?_⟩
          by_cases hne : b.coinbaseTx.out.amount ≠ total
          · simp [hne] at hok
          · push_neg at hne
            omega
    · intro hex
      obtain ⟨fs, hfl, hsum⟩ := hex
      have hfacc := feesAcc_of_ok hsh sigOk store b.transactions 0 fs hfl
        (by omega)
      have htot : coinbaseAmount + fs.sum < 4294967296 := by omega
      unfold Body.verify
      rw [hfacc]
      simp [addU32, htot, hsum]
  · intro fs hfl hlt hne
    have hfacc := feesAcc_of_ok hsh sigOk store b.transactions 0 fs hfl
      (by omega)
    have htot : coinbaseAmount + fs.sum < 4294967296 := by omega
    unfold Body.verify
    rw [hfacc]
    simp [addU32, htot, hne]

/-- C2 witness: a transaction-free body with the exact reward validates;
    one with a wrong reward fails `InvalidCoinbaseAmount`. -/
theorem c2_witness :
    Body.verify hashConc sigAlways storeEmpty bodyOk = .ok () ∧
    Body.verify hashConc sigAlways storeEmpty bodyBad =
      .error .InvalidCoinbaseAmount := by
  constructor
  · exact (c2_coinbase_spec hashConc sigAlways storeEmpty bodyOk
      (by decide)).1.mpr ⟨[], rfl, by decide⟩
  · exact (c2_coinbase_spec hashConc sigAlways storeEmpty bodyBad
      (by decide)).2 [] rfl (by decide) (by decide)

/-- C2 counterexample: a body whose two transactions verify with fees
    `2^31` each; its coinbase amount (1000) differs from
    `COINBASE_AMOUNT + Σfees`, yet validation does not return
    `InvalidCoinbaseAmount` — the u32 fee accumulation overflows (a panic
    in the source, `Overflow` here). -/
theorem c2_counterexample :
    feesList hashConc sigAlways storeBig bodyBig.transactions =
      .ok [2147483648, 2147483648] ∧
    bodyBig.coinbaseTx.out.amount ≠
      coinbaseAmount + ([2147483648, 2147483648] : List Nat).sum ∧
    Body.verify hashConc sigAlways storeBig bodyBig = .error .Overflow ∧
    Body.verify hashConc sigAlways storeBig bodyBig ≠
      .error .InvalidCoinbaseAmount := by
  refine ⟨rfl, by decide, rfl, ?_⟩
  intro h
  have h2 : (Except.error Error.Overflow : Except Error Unit) =
      .error .InvalidCoinbaseAmount :=
    Eq.trans (rfl : (Except.error Error.Overflow : Except Error Unit) =
      Body.verify hashConc sigAlways storeBig bodyBig) h
  simp at h2

/-- The signing loop pairs the keypairs, in order, with the raw inputs in
    REVERSE order: it equals mapping the signing constructor over
    `raws.reverse.zip kps`. -/
theorem signAll_reverse (sgn : Nat → Bytes → Bytes) (pkf : Nat → Bytes)
    (ser : Bytes) :
    ∀ kps raws, raws.length = kps.length →
      signAll sgn pkf ser kps raws =
        (raws.reverse.zip kps).map
          (fun p => SignedTxIn.fromRawTxIn sgn pkf p.1 ser p.2) := by
  intro kps
  induction kps with
  | nil =>
    intro raws hlen
    have : raws = [] := List.length_eq_zero.mp hlen
    subst this
    simp [signAll]
  | cons kp kps ih =>
    intro raws hlen
    rcases List.eq_nil_or_concat raws with hnil | ⟨ys, y, hconcat⟩
    · subst hnil; simp at hlen
    · subst hconcat
      simp only [List.concat_eq_append] at hlen ⊢
      have hy : (ys ++ [y]).getLast? = some y := by
        simp [List.getLast?_concat]
      have hdrop : (ys ++ [y]).dropLast = ys := by
        simp [List.dropLast_concat]
      have hrev : (ys ++ [y]).reverse = y :: ys.reverse := by
        simp
      simp only [signAll, hy, hdrop, hrev]
      have hlen2 : ys.length = kps.length := by
        simp [List.length_append] at hlen
        omega
      rw [ih ys hlen2]
      simp [List.zip_cons_cons]

/-- C4 (amended): with the keypair count equal to the input count,
    `SignedTx::from_raw_tx` produces the signed inputs in REVERSE raw
    input order — the i-th signed input is the (k-1-i)-th raw input,
    carrying a signature over `serialize(raw_tx)` by the i-th keypair and
    that keypair's public key; a count mismatch fails
    `InvalidNumberOfKeyPairs`. -/
theorem c4_sign_order (sgn : Nat → Bytes → Bytes) (pkf : Nat → Bytes)
    (raw : RawTx) (kps : List Nat) :
    (raw.input.length ≠ kps.length →
      SignedTx.fromRawTx sgn pkf raw kps = .error .InvalidNumberOfKeyPairs) ∧
    (raw.input.length = kps.length →
      SignedTx.fromRawTx sgn pkf raw kps = .ok
        { input := (raw.input.reverse.zip kps).map
            (fun p => SignedTxIn.fromRawTxIn sgn pkf p.1 (serializeRawTx raw) p.2)
          output := raw.output }) ∧
    (∀ tx, SignedTx.fromRawTx sgn pkf raw kps = .ok tx →
      tx.output = raw.output ∧ tx.input.length = raw.input.length ∧
      ∀ i kp r, kps[i]? = some kp →
        raw.input[kps.length - 1 - i]? = some r →
        tx.input[i]? =
          some (SignedTxIn.fromRawTxIn sgn pkf r (serializeRawTx raw) kp)) := by
  have hform : raw.input.length = kps.length →
      SignedTx.fromRawTx sgn pkf raw kps = .ok
        { input := (raw.input.reverse.zip kps).map
            (fun p => SignedTxIn.fromRawTxIn sgn pkf p.1 (serializeRawTx raw) p.2)
          output := raw.output } := by
    intro heq
    simp only [SignedTx.fromRawTx]
    rw [if_neg (not_not_intro heq),
      signAll_reverse sgn pkf (serializeRawTx raw) kps raw.input heq]
  refine ⟨?_, hform, ?_⟩
  · intro hne
    simp [SignedTx.fromRawTx, hne]
  · intro tx htx
    by_cases heq : raw.input.length = kps.length
    · rw [hform heq] at htx
      injection htx with htx2
      subst htx2
      refine ⟨rfl, ?_, ?_⟩
      · simp [List.length_zip, heq]
      · intro i kp r hkp hr
        have hi : i < kps.length := by
          by_contra hge
          rw [List.getElem?_eq_none (Nat.le_of_not_lt hge)] at hkp
          cases hkp
        rw [List.getElem?_map]
        have hz : (raw.input.reverse.zip kps)[i]? = some (r, kp) := by
          apply List.getElem?_zip_eq_some.mpr
          constructor
          · rw [List.getElem?_reverse (by omega : i < raw.input.length)]
            rw [heq]
            exact hr
          · exact hkp
        rw [hz]
        rfl
    · simp only [SignedTx.fromRawTx] at htx
      rw [if_pos heq] at htx
      cases htx

/-- C4 witness: signing a two-input transaction with two keypairs and, on
    the other branch, with a single keypair (count mismatch). -/
theorem c4_witness :
    SignedTx.fromRawTx sgnC pkfC rawC [10, 20] = .ok
      { input := (rawC.input.reverse.zip [10, 20]).map
          (fun p => SignedTxIn.fromRawTxIn sgnC pkfC p.1 (serializeRawTx rawC) p.2)
        output := rawC.output } ∧
    SignedTx.fromRawTx sgnC pkfC rawC [10] =
      .error .InvalidNumberOfKeyPairs :=
  ⟨(c4_sign_order sgnC pkfC rawC [10, 20]).2.1 rfl,
   (c4_sign_order sgnC pkfC rawC [10]).1 (by decide)⟩

/-- C4 counterexample: signing the two-input `rawC` with keypairs
    `[10, 20]` yields a first signed input whose UTXO reference is
    `rawC`'s SECOND raw input, not its first — the claim's "i-th signed
    input corresponds to the i-th raw input" fails. -/
theorem c4_counterexample :
    (SignedTx.fromRawTx sgnC pkfC rawC [10, 20]).toOption.map
      (fun tx => tx.input.map SignedTxIn.prevTxHash) = some [[2], [1]] ∧
    rawC.input.map RawTxIn.prevTxHash = [[1], [2]] ∧
    ¬ ([[2], [1]] : List Bytes) = [[1], [2]] := by
  refine ⟨by decide, by decide, by decide⟩

/-- C3 (amended): for a header whose cached hash matches its content,
    `Header::verify` returns `HashIsTooHigh` exactly when the difficulty
    threshold is byte-wise STRICTLY BELOW the hash — i.e. the code
    accepts `hash ≤ threshold`, including equality, not only
    `hash < threshold`. -/
theorem c3_pow_comparison (hsh : Bytes → Bytes) (h : Header)
    (hc : hsh (serializeCore h.hashedContent) = h.hash) :
    Header.verify hsh h = .error .HashIsTooHigh ↔
      bytesLt h.hashedContent.difficulty h.hash = true := by
  simp only [Header.verify]
  rw [hc]
  by_cases hb : bytesLt h.hashedContent.difficulty h.hash = true
  · simp [isLowerThan, hb]
  · simp [isLowerThan, hb]

/-- C3 witness: a header whose hash `[1]` strictly exceeds its threshold
    `[0]` is rejected with `HashIsTooHigh`. -/
theorem c3_witness : Header.verify hshW hdrW = .error .HashIsTooHigh :=
  (c3_pow_comparison hshW hdrW rfl).mpr (by decide)

/-- C3 counterexample: a header whose (matching) cached hash EQUALS its
    difficulty threshold — so the hash is not strictly below the
    threshold — is nonetheless accepted by `Header::verify`, where the
    claim requires `HashIsTooHigh`. -/
theorem c3_counterexample :
    hshT (serializeCore hdrT.hashedContent) = hdrT.hash ∧
    bytesLt hdrT.hash hdrT.hashedContent.difficulty = false ∧
    Header.verify hshT hdrT = .ok () :=
  ⟨rfl, by decide, rfl⟩

set_option maxRecDepth 10000 in
/-- C1: the tail-link comparison of btclike's `Chain::verify` is wrong.
    `chainAB` is correctly linked (its head's `previous_block_hash` is
    the tail head's hash), yet `verify` reports
    `HeadAndTailHashMismatch`, because the code compares the two headers'
    `previous_block_hash` fields with each other; `chainAB2`, whose head
    does NOT point at its tail's hash but shares its tail's
    `previous_block_hash`, is accepted.  (The sibling implementation's
    `Chain::expand` does perform the claimed check, see
    `Net.NChain.expand`.) -/
theorem c1_verify_linkage_bug :
    hdrB.hashedContent.previousBlockHash = hdrA.hash ∧
    Chain.verify hashConc sigAlways storeEmpty hdrA.hash chainAB =
      .error .HeadAndTailHashMismatch ∧
    hdrB2.hashedContent.previousBlockHash ≠ hdrA.hash ∧
    Chain.verify hashConc sigAlways storeEmpty hdrA.hash chainAB2 =
      .ok () := by
  exact ⟨rfl, rfl, by decide, rfl⟩

set_option maxRecDepth 100000 in
/-- C8 (amended): starting from `min_difficulty`, `k` calls to
    `increase()` (1 ≤ k ≤ 224) leave the threshold at
    `2 ^ (256 - k - (k-1)/7) - 1` as a big-endian integer (each call
    clears one bit; crossing into the next byte forces it to `0x7F`,
    losing one extra bit every 8th-then-7th call); the 225th call panics
    ("Exceeded the maximum difficulty"). -/
theorem c8_difficulty_halving :
    (∀ k, 1 ≤ k → k ≤ 224 →
      (increaseIter k minDifficulty).map beValue =
        some (2 ^ (256 - k - (k - 1) / 7) - 1)) ∧
    increaseIter 225 minDifficulty = none := by
  constructor
  · have H : ∀ k < 225, 1 ≤ k →
        (increaseIter k minDifficulty).map beValue =
          some (2 ^ (256 - k - (k - 1) / 7) - 1) := by decide
    intro k h1 h2
    exact H k (by omega) h1
  · decide

/-- C8 witness: nine calls yield `2^246 - 1` (nine halvings plus one
    byte-boundary crossing). -/
theorem c8_witness :
    (increaseIter 9 minDifficulty).map beValue = some (2 ^ 246 - 1) :=
  c8_difficulty_halving.1 9 (by decide) (by decide)

/-- C8 counterexample: after a single `increase()` the threshold is
    `2^255 - 1`, not the `2^(256-1) = 2^255` the claim states. -/
theorem c8_counterexample :
    (increaseIter 1 minDifficulty).map beValue = some (2 ^ 255 - 1) ∧
    (2 ^ 255 - 1 : Nat) ≠ 2 ^ 255 := by
  exact ⟨by decide, by decide⟩

end BtcLike

namespace Net

/-- A candidate block built by the miner on top of its own chain can only
    fail validation through the proof-of-work bound: its cached hash is
    correct by construction, its previous hash is the chain head's hash,
    and its difficulty is the chain head's difficulty. -/
theorem expand_candidate (hb : Nat → Nat → Bytes → Bytes → Bytes)
    (c : NChain) (nid n : Nat) :
    NChain.expand hb c
        (NBlock.new hb nid n c.head.difficulty c.head.hash) =
      (if bytesLt (hb nid n c.head.difficulty c.head.hash)
          c.head.difficulty = true then
        .ok (NChain.grown (NBlock.new hb nid n c.head.difficulty c.head.hash)
          (c.height + 1) c)
      else .error .hashHigherThanDifficulty) := by
  by_cases hlt : bytesLt (hb nid n c.head.difficulty c.head.hash)
      c.head.difficulty = true
  · simp [NChain.expand, NChain.validateHead, NBlock.validate, NBlock.new,
      NChain.hashesMatch, hlt]
  · simp [NChain.expand, NChain.validateHead, NBlock.validate, NBlock.new,
      NChain.hashesMatch, hlt]

/-- The tick branch of the miner's stream closure, as one equation. -/
theorem minerStep_tick_eq (hb : Nat → Nat → Bytes → Bytes → Bytes)
    (s : MiningState) :
    minerStep hb s .tick =
      (match NChain.expand hb s.chain
          (NBlock.new hb s.nodeId (s.nonce + 1) s.chain.head.difficulty
            s.chain.head.hash) with
       | .ok c => (some c, { s with nonce := s.nonce + 1 })
       | .error _ => (none, { s with nonce := s.nonce + 1 })) := by
  cases hx : NChain.expand hb s.chain
      (NBlock.new hb s.nodeId (s.nonce + 1) s.chain.head.difficulty
        s.chain.head.hash) with
  | ok c => simp [minerStep, mine, hx]
  | error e => simp [minerStep, mine, hx]

/-- C6: on a mining tick the engine emits a chain exactly when
    `Chain::expand` on the freshly built candidate succeeds; when it
    emits nothing the expansion failed precisely with
    "Hash higher than difficulty" (no other expansion error can occur on
    a self-built candidate, so no mining attempt produces one), and in
    every case the engine continues with the incremented nonce. -/
theorem c6_mining_attempt (hb : Nat → Nat → Bytes → Bytes → Bytes)
    (s : MiningState) :
    (∀ c, (minerStep hb s .tick).1 = some c ↔
      NChain.expand hb s.chain
        (NBlock.new hb s.nodeId (s.nonce + 1) s.chain.head.difficulty
          s.chain.head.hash) = .ok c) ∧
    ((minerStep hb s .tick).1 = none →
      NChain.expand hb s.chain
        (NBlock.new hb s.nodeId (s.nonce + 1) s.chain.head.difficulty
          s.chain.head.hash) = .error .hashHigherThanDifficulty) ∧
    (minerStep hb s .tick).2 = { s with nonce := s.nonce + 1 } := by
  have hx := expand_candidate hb s.chain s.nodeId (s.nonce + 1)
  by_cases hlt : bytesLt (hb s.nodeId (s.nonce + 1) s.chain.head.difficulty
      s.chain.head.hash) s.chain.head.difficulty = true
  · rw [if_pos hlt] at hx
    refine ⟨?_, ?_, ?_⟩
    · intro c
      simp [minerStep_tick_eq, hx]
    · intro hnone
      simp [minerStep_tick_eq, hx] at hnone
    · simp [minerStep_tick_eq, hx]
  · rw [if_neg hlt] at hx
    refine ⟨?_, ?_, ?_⟩
    · intro c
      simp [minerStep_tick_eq, hx]
    · intro _
      exact hx
    · simp [minerStep_tick_eq, hx]

/-- C6 witness: under difficulty `[0]` nothing is emitted and the
    expansion error is exactly "Hash higher than difficulty". -/
theorem c6_witness :
    NChain.expand hb0 s0.chain
      (NBlock.new hb0 s0.nodeId (s0.nonce + 1) s0.chain.head.difficulty
        s0.chain.head.hash) = .error .hashHigherThanDifficulty :=
  (c6_mining_attempt hb0 s0).2.1 rfl

/-- The per-peer pass attempts a send exactly for the peers whose known
    height is strictly below the propagated height. -/
theorem propagateOne_snd (h : Nat) (p : Peer) :
    (propagateOne h p).2 = decide (p.knownChainHeight < h) := by
  unfold propagateOne
  by_cases hc : p.knownChainHeight < h
  · by_cases hs : p.sendOk <;> simp [hc, hs]
  · simp [hc]

/-- The retained peer list after a pass: drop exactly the peers that were
    sent to and whose send failed; record the new height on the peers
    that were sent to successfully. -/
theorem propagate_peers_eq (h : Nat) :
    ∀ peers : List Peer, (∀ p ∈ peers, p.isClosed = false) →
      ((peers.map (propagateOne h)).map Prod.fst).filter
          (fun p => !p.isClosed) =
        (peers.filter
          (fun p => !(decide (p.knownChainHeight < h) && !p.sendOk))).map
          (fun p => if p.knownChainHeight < h then
            { p with knownChainHeight := h } else p) := by
  intro peers
  induction peers with
  | nil => intro _; simp
  | cons p rest ih =>
    intro hopen
    have hp := hopen p (List.mem_cons_self p rest)
    have ihr := ih (fun q hq => hopen q (List.mem_cons_of_mem p hq))
    by_cases hc : p.knownChainHeight < h
    · by_cases hs : p.sendOk = true
      · simp [propagateOne, hc, hs, hp, List.filter_cons]
        simpa using ihr
      · simp only [Bool.not_eq_true] at hs
        simp [propagateOne, hc, hs, hp, List.filter_cons]
        simpa using ihr
    · simp [propagateOne, hc, hp, List.filter_cons]
      simpa using ihr

/-- C7 (amended): `propagate` sends the chain exactly to the peers whose
    known height is strictly below the chain's height (regardless of the
    node's own chain), records the chain's height for the peers whose
    send succeeded, drops the peers whose send failed, and adopts the
    chain — replacing the node's chain and notifying the miner — exactly
    when it is strictly higher than the node's current chain.  An
    equal-height chain is thus never adopted, but it IS still forwarded
    to peers that lag behind. -/
theorem c7_propagate_spec (h cur : Nat) (peers : List Peer)
    (hopen : ∀ p ∈ peers, p.isClosed = false) :
    ((propagate h cur peers).adopted = true ↔ cur < h) ∧
    (propagate h cur peers).sends =
      peers.map (fun p => decide (p.knownChainHeight < h)) ∧
    (propagate h cur peers).peers =
      (peers.filter
        (fun p => !(decide (p.knownChainHeight < h) && !p.sendOk))).map
        (fun p => if p.knownChainHeight < h then
          { p with knownChainHeight := h } else p) := by
  refine ⟨?_, ?_, ?_⟩
  · simp [propagate]
  · simp only [propagate, List.map_map]
    apply List.map_congr_left
    intro p _
    exact propagateOne_snd h p
  · exact propagate_peers_eq h peers hopen

/-- C7 witness: a strictly higher chain is adopted. -/
theorem c7_witness : (propagate 2 1 [⟨0, true, false⟩]).adopted = true :=
  ((c7_propagate_spec 2 1 [⟨0, true, false⟩] (by decide)).1).mpr (by decide)

/-- C7 counterexample: a chain of height 1 arriving at a node whose
    current chain already has height 1 is NOT adopted, yet it IS sent to
    a peer whose known height is 0 — refuting "an equal-height chain is
    neither adopted nor forwarded". -/
theorem c7_counterexample :
    (propagate 1 1 [⟨0, true, false⟩]).sends = [true] ∧
    (propagate 1 1 [⟨0, true, false⟩]).adopted = false := by
  exact ⟨by decide, by decide⟩

end Net

namespace FlatSel

/-- C9: `FlattenSelect::poll` with a single child is a no-op fixed point:
    the inner loop performs `children_len - 1 = 0` iterations, so the
    only child — although its next poll would yield an item — is never
    polled, the state is returned unchanged, and repeated polling yields
    nothing forever: the item `42` is never surfaced. -/
theorem c9_single_child_starves :
    starvedFS.children = [[PollRes.ready 42]] ∧
    poll starvedFS = (PollOut.pend, starvedFS) := by
  exact ⟨rfl, rfl⟩

end FlatSel

end PowChain
